import Mathlib

/-!
Verification development for the design-asset text-translator app (`src/app.py`).

The core pipeline of the app is pure string processing:
  * `normalize_text` — lowercase, drop punctuation, collapse whitespace, strip;
  * `should_translate` — noise filter;
  * `apply_corrections` — per-character OCR correction map;
  * the glossary index built from CSV rows and `lookup_glossary`;
  * `translate_text_list` — per-string, per-target-language resolution;
  * the extraction-time cleanup loop of `ocr_extract_strings`.

External collaborators (the fuzzy scorer of `rapidfuzz.process.extractOne`,
the `deep_translator` machine-translation call) are modelled as explicit
function parameters; everything else is translated directly from the source.
Strings are modelled through their character lists; the character classes
(`\w`, `\s` of Python regular expressions, `str.strip`, `str.lower`) are
modelled at ASCII fidelity, which covers every literal the program and its
specification mention.
-/

/-- Model of Python `\s` (ASCII range): space, tab, newline, carriage return,
vertical tab, form feed. -/
def isSpaceChar (c : Char) : Bool :=
  c = ' ' || c = '\t' || c = '\n' || c = '\r' || c = '\x0b' || c = '\x0c'

/-- Model of Python `\w` (ASCII range): letters, digits, underscore. -/
def isWordChar (c : Char) : Bool :=
  c.isAlpha || c.isDigit || c = '_'

/-- Characters kept by `re.sub(r"[^\w\s]", "", text)`: word characters and
whitespace. -/
def keepChar (c : Char) : Bool :=
  isWordChar c || isSpaceChar c

/-- One pass of `re.sub(r"\s+", " ", text)`: every maximal run of whitespace
characters is replaced by a single `' '`.  The boolean flag records whether
the previous character was part of a whitespace run. -/
def collapseAux : List Char → Bool → List Char
  | [], _ => []
  | c :: rest, prev =>
    if isSpaceChar c then
      if prev then collapseAux rest true else ' ' :: collapseAux rest true
    else c :: collapseAux rest false

/-- Remove the maximal trailing run of characters satisfying `p`. -/
def dropTrailing (p : Char → Bool) : List Char → List Char
  | [] => []
  | c :: rest =>
    match dropTrailing p rest with
    | [] => if p c then [] else [c]
    | r => c :: r

/-- Model of Python `str.strip()` on a character list: remove leading and trailing
whitespace. -/
def stripSpaces (l : List Char) : List Char :=
  dropTrailing isSpaceChar (l.dropWhile isSpaceChar)

/-- Model of Python `str.strip()`. -/
def pyStrip (s : String) : String :=
  ⟨stripSpaces s.data⟩

/-- Model of Python `str.lower()` (ASCII letters). -/
def pyLower (s : String) : String :=
  ⟨s.data.map Char.toLower⟩

/-- Model of `normalize_text` of `src/app.py`: lowercase, drop punctuation
(`re.sub(r"[^\w\s]", "", ·)`), collapse internal whitespace to single spaces
(`re.sub(r"\s+", " ", ·)`) and strip. -/
def normalize_text (s : String) : String :=
  ⟨stripSpaces (collapseAux ((s.data.map Char.toLower).filter keepChar) false)⟩

section CharLemmas

theorem char_toNat_ofNat_small (m : Nat) (h : m < 55296) :
    (Char.ofNat m).toNat = m := by
  have hv : m.isValidChar := Or.inl h
  rw [Char.ofNat, dif_pos hv]
  rfl

theorem toLower_toLower (c : Char) : c.toLower.toLower = c.toLower := by
  unfold Char.toLower
  by_cases h : c.toNat ≥ 65 ∧ c.toNat ≤ 90
  · rw [if_pos h]
    have h32 : (Char.ofNat (c.toNat + 32)).toNat = c.toNat + 32 :=
      char_toNat_ofNat_small _ (by omega)
    rw [if_neg (by omega)]
  · rw [if_neg h, if_neg h]

theorem toLower_space : Char.toLower ' ' = ' ' := by decide

end CharLemmas

section CollapseStrip

/-- Every character emitted by `collapseAux` is either the inserted `' '`
or a non-whitespace character of the input. -/
theorem mem_collapseAux : ∀ (l : List Char) (b : Bool) (c : Char),
    c ∈ collapseAux l b → c = ' ' ∨ (c ∈ l ∧ isSpaceChar c = false) := by
  intro l
  induction l with
  | nil => intro b c h; simp [collapseAux] at h
  | cons d rest ih =>
    intro b c h
    by_cases hd : isSpaceChar d
    · cases b with
      | true =>
        simp only [collapseAux, hd, if_pos, if_true] at h
        rcases ih true c h with h1 | ⟨h2, h3⟩
        · exact Or.inl h1
        · exact Or.inr ⟨List.mem_cons_of_mem _ h2, h3⟩
      | false =>
        simp only [collapseAux, hd, if_pos, if_false] at h
        rcases List.mem_cons.mp h with h1 | h1
        · exact Or.inl h1
        · rcases ih true c h1 with h2 | ⟨h2, h3⟩
          · exact Or.inl h2
          · exact Or.inr ⟨List.mem_cons_of_mem _ h2, h3⟩
    · simp only [collapseAux, hd, if_neg, Bool.false_eq_true, if_false] at h
      rcases List.mem_cons.mp h with h1 | h1
      · subst h1
        exact Or.inr ⟨List.mem_cons_self _ _, Bool.not_eq_true _ ▸ by simpa using hd⟩
      · rcases ih false c h1 with h2 | ⟨h2, h3⟩
        · exact Or.inl h2
        · exact Or.inr ⟨List.mem_cons_of_mem _ h2, h3⟩

/-- Adjacent-whitespace checker: no two consecutive whitespace characters. -/
def noDbl : List Char → Bool
  | c1 :: c2 :: rest => (!(isSpaceChar c1) || !(isSpaceChar c2)) && noDbl (c2 :: rest)
  | _ => true

theorem noDbl_cons_tail {c : Char} {l : List Char} (h : noDbl (c :: l) = true) :
    noDbl l = true := by
  cases l with
  | nil => rfl
  | cons d rest => exact (Bool.and_eq_true_iff.mp h).2

theorem head_collapseAux_true : ∀ (l : List Char) (d : Char),
    (collapseAux l true).head? = some d → isSpaceChar d = false := by
  intro l
  induction l with
  | nil => intro d h; simp [collapseAux] at h
  | cons c rest ih =>
    intro d h
    by_cases hc : isSpaceChar c
    · simp only [collapseAux, hc, if_pos, if_true] at h
      exact ih d h
    · simp only [collapseAux, hc, if_neg, Bool.false_eq_true, if_false,
        List.head?_cons, Option.some.injEq] at h
      subst h
      simpa using hc

theorem noDbl_cons_of_head {c : Char} {l : List Char}
    (h1 : noDbl l = true)
    (h2 : ∀ d, l.head? = some d → (isSpaceChar c = false ∨ isSpaceChar d = false)) :
    noDbl (c :: l) = true := by
  cases l with
  | nil => rfl
  | cons d rest =>
    have := h2 d rfl
    apply Bool.and_eq_true_iff.mpr
    constructor
    · rcases this with h | h <;> simp [h]
    · exact h1

theorem noDbl_collapseAux : ∀ (l : List Char) (b : Bool),
    noDbl (collapseAux l b) = true := by
  intro l
  induction l with
  | nil => intro b; rfl
  | cons c rest ih =>
    intro b
    by_cases hc : isSpaceChar c
    · cases b with
      | true => simpa [collapseAux, hc] using ih true
      | false =>
        simp only [collapseAux, hc, if_pos, if_false]
        apply noDbl_cons_of_head (ih true)
        intro d hd
        exact Or.inr (head_collapseAux_true rest d hd)
    · simp only [collapseAux, hc, if_neg, Bool.false_eq_true, if_false]
      apply noDbl_cons_of_head (ih false)
      intro d _
      exact Or.inl (by simpa using hc)

theorem collapseAux_true_eq_false {l : List Char}
    (h : ∀ d, l.head? = some d → isSpaceChar d = false) :
    collapseAux l true = collapseAux l false := by
  cases l with
  | nil => rfl
  | cons c rest =>
    have := h c rfl
    simp [collapseAux, this]

/-- On a list whose whitespace is exactly single `' '` characters with no two
adjacent, the collapsing pass is the identity. -/
theorem collapseAux_id : ∀ (l : List Char),
    (∀ c ∈ l, isSpaceChar c = true → c = ' ') → noDbl l = true →
    collapseAux l false = l := by
  intro l
  induction l with
  | nil => intro _ _; rfl
  | cons c rest ih =>
    intro hsp hnd
    by_cases hc : isSpaceChar c
    · have hc' : c = ' ' := hsp c (List.mem_cons_self _ _) hc
      have hrest : collapseAux rest true = collapseAux rest false := by
        apply collapseAux_true_eq_false
        intro d hd
        cases rest with
        | nil => simp at hd
        | cons e rest' =>
          simp only [List.head?_cons, Option.some.injEq] at hd
          subst hd
          have := (Bool.and_eq_true_iff.mp hnd).1
          rcases Bool.or_eq_true_iff.mp this with h | h
          · rw [hc] at h; simp at h
          · simpa using h
      have hid : collapseAux rest false = rest :=
        ih (fun d hd h => hsp d (List.mem_cons_of_mem _ hd) h) (noDbl_cons_tail hnd)
      simp only [collapseAux, hc, if_pos, if_true, Bool.false_eq_true, if_false,
        hrest, hid]
      rw [hc']
    · simp only [collapseAux, hc, if_neg, Bool.false_eq_true, if_false]
      rw [ih (fun d hd h => hsp d (List.mem_cons_of_mem _ hd) h) (noDbl_cons_tail hnd)]

theorem mem_dropTrailing {p : Char → Bool} : ∀ {l : List Char} {c : Char},
    c ∈ dropTrailing p l → c ∈ l := by
  intro l
  induction l with
  | nil => intro c h; simp [dropTrailing] at h
  | cons d rest ih =>
    intro c h
    rw [dropTrailing] at h
    cases hr : dropTrailing p rest with
    | nil =>
      rw [hr] at h
      by_cases hp : p d
      · rw [if_pos hp] at h; simp at h
      · rw [if_neg hp] at h
        simp only [List.mem_singleton] at h
        subst h; exact List.mem_cons_self _ _
    | cons e r' =>
      rw [hr] at h
      rcases List.mem_cons.mp h with h1 | h1
      · subst h1; exact List.mem_cons_self _ _
      · exact List.mem_cons_of_mem _ (ih (hr ▸ h1))

theorem mem_dropWhileChar {p : Char → Bool} : ∀ {l : List Char} {c : Char},
    c ∈ l.dropWhile p → c ∈ l := by
  intro l
  induction l with
  | nil => intro c h; simp [List.dropWhile] at h
  | cons d rest ih =>
    intro c h
    rw [List.dropWhile_cons] at h
    split at h
    · exact List.mem_cons_of_mem _ (ih h)
    · exact h

theorem head?_dropTrailing {p : Char → Bool} : ∀ {l : List Char} {d : Char},
    (dropTrailing p l).head? = some d → l.head? = some d := by
  intro l
  cases l with
  | nil => intro d h; simp [dropTrailing] at h
  | cons c rest =>
    intro d h
    cases hr : dropTrailing p rest with
    | nil =>
      rw [dropTrailing, hr] at h
      by_cases hp : p c
      · rw [if_pos hp] at h; simp at h
      · rw [if_neg hp] at h
        simpa using h
    | cons e r' =>
      rw [dropTrailing, hr] at h
      simpa using h

theorem noDbl_dropTrailing {p : Char → Bool} : ∀ {l : List Char},
    noDbl l = true → noDbl (dropTrailing p l) = true := by
  intro l
  induction l with
  | nil => intro _; rfl
  | cons c rest ih =>
    intro h
    have htail : ∀ d, (dropTrailing p rest).head? = some d →
        (isSpaceChar c = false ∨ isSpaceChar d = false) := by
      intro d hd
      have hd' : rest.head? = some d := head?_dropTrailing hd
      cases rest with
      | nil => simp at hd'
      | cons e rest' =>
        simp only [List.head?_cons, Option.some.injEq] at hd'
        subst hd'
        have := (Bool.and_eq_true_iff.mp h).1
        rcases Bool.or_eq_true_iff.mp this with h1 | h1
        · exact Or.inl (by simpa using h1)
        · exact Or.inr (by simpa using h1)
    cases hr : dropTrailing p rest with
    | nil =>
      rw [dropTrailing, hr]
      by_cases hp : p c
      · rw [if_pos hp]; rfl
      · rw [if_neg hp]; rfl
    | cons e r' =>
      rw [dropTrailing, hr]
      apply noDbl_cons_of_head (hr ▸ ih (noDbl_cons_tail h))
      intro d hd
      exact htail d (hr ▸ hd)

theorem getLast?_dropTrailing {p : Char → Bool} : ∀ {l : List Char} {d : Char},
    (dropTrailing p l).getLast? = some d → p d = false := by
  intro l
  induction l with
  | nil => intro d h; simp [dropTrailing] at h
  | cons c rest ih =>
    intro d h
    cases hr : dropTrailing p rest with
    | nil =>
      rw [dropTrailing, hr] at h
      by_cases hp : p c
      · rw [if_pos hp] at h; simp at h
      · rw [if_neg hp] at h
        simp only [List.getLast?_singleton, Option.some.injEq] at h
        subst h
        simpa using hp
    | cons e rest' =>
      rw [dropTrailing, hr] at h
      rw [List.getLast?_cons_cons] at h
      exact ih (hr ▸ h)

theorem dropTrailing_id {p : Char → Bool} : ∀ {l : List Char},
    (∀ d, l.getLast? = some d → p d = false) → dropTrailing p l = l := by
  intro l
  induction l with
  | nil => intro _; rfl
  | cons c rest ih =>
    intro h
    cases rest with
    | nil =>
      have hc := h c rfl
      rw [dropTrailing]
      rw [show dropTrailing p ([] : List Char) = [] from rfl]
      rw [if_neg (by simp [hc])]
    | cons e rest' =>
      have hrest : dropTrailing p (e :: rest') = e :: rest' := by
        apply ih
        intro d hd
        apply h
        rw [List.getLast?_cons_cons]
        exact hd
      rw [dropTrailing, hrest]

theorem dropWhile_id {p : Char → Bool} {l : List Char}
    (h : ∀ d, l.head? = some d → p d = false) : l.dropWhile p = l := by
  cases l with
  | nil => rfl
  | cons c rest =>
    have := h c rfl
    simp [List.dropWhile_cons, this]

theorem head?_dropWhileChar {p : Char → Bool} : ∀ {l : List Char} {d : Char},
    (l.dropWhile p).head? = some d → p d = false := by
  intro l
  induction l with
  | nil => intro d h; simp at h
  | cons c rest ih =>
    intro d h
    rw [List.dropWhile_cons] at h
    split at h
    · exact ih h
    · next hc =>
      simp only [List.head?_cons, Option.some.injEq] at h
      subst h
      simpa using hc

theorem mem_stripSpaces {l : List Char} {c : Char} (h : c ∈ stripSpaces l) :
    c ∈ l :=
  mem_dropWhileChar (mem_dropTrailing h)

theorem head?_stripSpaces {l : List Char} {d : Char}
    (h : (stripSpaces l).head? = some d) : isSpaceChar d = false :=
  head?_dropWhileChar (head?_dropTrailing h)

theorem getLast?_stripSpaces {l : List Char} {d : Char}
    (h : (stripSpaces l).getLast? = some d) : isSpaceChar d = false :=
  getLast?_dropTrailing h

theorem noDbl_stripSpaces {l : List Char} (h : noDbl l = true) :
    noDbl (stripSpaces l) = true := by
  apply noDbl_dropTrailing
  -- noDbl is preserved by dropWhile since the result is a suffix
  induction l with
  | nil => exact h
  | cons c rest ih =>
    rw [List.dropWhile_cons]
    split
    · exact ih (noDbl_cons_tail h)
    · exact h

theorem stripSpaces_id {l : List Char}
    (h1 : ∀ d, l.head? = some d → isSpaceChar d = false)
    (h2 : ∀ d, l.getLast? = some d → isSpaceChar d = false) :
    stripSpaces l = l := by
  unfold stripSpaces
  rw [dropWhile_id h1, dropTrailing_id h2]

end CollapseStrip

section NormalizeLemmas

/-- Every character of a normalized string is `Char.toLower`-fixed and is a
word character or a space. -/
theorem normalize_text_chars (s : String) :
    ∀ c ∈ (normalize_text s).data,
      Char.toLower c = c ∧ keepChar c = true := by
  intro c hc
  have hc1 : c ∈ collapseAux ((s.data.map Char.toLower).filter keepChar) false :=
    mem_stripSpaces hc
  rcases mem_collapseAux _ _ _ hc1 with h | ⟨h, _⟩
  · subst h
    exact ⟨toLower_space, by decide⟩
  · have hf := List.mem_filter.mp h
    have hmap := hf.1
    rcases List.mem_map.mp hmap with ⟨a, _, ha⟩
    constructor
    · rw [← ha]; exact toLower_toLower a
    · exact hf.2

theorem normalize_text_spaces (s : String) :
    ∀ c ∈ (normalize_text s).data, isSpaceChar c = true → c = ' ' := by
  intro c hc hsp
  have hc1 : c ∈ collapseAux ((s.data.map Char.toLower).filter keepChar) false :=
    mem_stripSpaces hc
  rcases mem_collapseAux _ _ _ hc1 with h | ⟨_, h2⟩
  · exact h
  · rw [hsp] at h2; cases h2

theorem normalize_text_noDbl (s : String) :
    noDbl (normalize_text s).data = true :=
  noDbl_stripSpaces (noDbl_collapseAux _ _)

theorem normalize_text_head (s : String) :
    ∀ d, (normalize_text s).data.head? = some d → isSpaceChar d = false := by
  intro d hd
  exact head?_stripSpaces hd

theorem normalize_text_last (s : String) :
    ∀ d, (normalize_text s).data.getLast? = some d → isSpaceChar d = false := by
  intro d hd
  exact getLast?_stripSpaces hd

/-- `normalize_text` is idempotent. -/
theorem normalize_text_idem (s : String) :
    normalize_text (normalize_text s) = normalize_text s := by
  have hchars := normalize_text_chars s
  have hmap : (normalize_text s).data.map Char.toLower = (normalize_text s).data :=
    List.map_congr_left (fun c hc => (hchars c hc).1) |>.trans (List.map_id _)
  have hfilter : (normalize_text s).data.filter keepChar = (normalize_text s).data :=
    List.filter_eq_self.mpr (fun c hc => (hchars c hc).2)
  show (⟨stripSpaces (collapseAux (((normalize_text s).data.map Char.toLower).filter keepChar) false)⟩ : String) = normalize_text s
  rw [hmap, hfilter]
  rw [collapseAux_id _ (normalize_text_spaces s) (normalize_text_noDbl s)]
  rw [stripSpaces_id (normalize_text_head s) (normalize_text_last s)]

end NormalizeLemmas

/-- Model of `should_translate` of `src/app.py`: skip very short strings
(`len(text.strip()) <= 1`), then skip strings made entirely of digits,
non-word characters and underscores (`re.fullmatch(r"[0-9\W_]+", text)`). -/
def should_translate (s : String) : Bool :=
  if (pyStrip s).length ≤ 1 then false
  else if s.data ≠ [] ∧ ∀ c ∈ s.data, (c.isDigit || !(isWordChar c) || c = '_') then false
  else true

/-- Model of `CORRECTION_MAP` of `src/app.py`: `{"l": "!"}` — lowercase L misread for
an exclamation mark; `CORRECTION_MAP.get(ch, ch)` behaviour. -/
def CORRECTION_MAP (c : Char) : Option Char :=
  if c = 'l' then some '!' else none

/-- One character of `apply_corrections`: `CORRECTION_MAP.get(ch, ch)`. -/
def correctChar (c : Char) : Char :=
  (CORRECTION_MAP c).getD c

/-- Model of `apply_corrections` of `src/app.py`:
`"".join(CORRECTION_MAP.get(ch, ch) for ch in text)`. -/
def apply_corrections (s : String) : String :=
  ⟨s.data.map correctChar⟩

/-- First-occurrence lookup in an insertion-ordered association list; this is
`d[k]`-style access of a Python `dict` whose keys are unique. -/
def dictFind {α : Type} : List (String × α) → String → Option α
  | [], _ => none
  | p :: d, k => if p.1 = k then some p.2 else dictFind d k

/-- Model of Python `d.get(k, dflt)`. -/
def dictGet (d : List (String × String)) (k dflt : String) : String :=
  (dictFind d k).getD dflt

/-- Model of Python `d[k] = v` on an insertion-ordered `dict`: overwrite in place if
the key is present, append at the end otherwise. -/
def insertDict {α : Type} : List (String × α) → String → α → List (String × α)
  | [], k, v => [(k, v)]
  | p :: d, k, v => if p.1 = k then (k, v) :: d else p :: insertDict d k v

/-- A glossary entry: the per-column dict
`{col: str(row[col]) for col in expected_cols}`. -/
abbrev Entry := List (String × String)

/-- The recognised glossary columns of `src/app.py`. -/
def expected_cols : List String := ["EN", "ID", "JA", "KO", "MS", "TH", "VI", "ZH"]

/-- The key under which a glossary row is stored:
`str(row["EN"]).strip().lower()`. -/
def row_key (row : List (String × String)) : String :=
  pyLower (pyStrip (dictGet row "EN" ""))

/-- The value stored for a glossary row:
`{col: str(row[col]) for col in expected_cols}`. -/
def entry_of_row (row : List (String × String)) : Entry :=
  expected_cols.map (fun col => (col, dictGet row col ""))

/-- The glossary-loading loop of `src/app.py` (lines 50–53): for each row, if
`str(row["EN"]).strip().lower()` is non-empty, store the row's entry under
that key.  Rows are modelled as association lists over the (already
validated) expected columns. -/
def build_glossary_map (rows : List (List (String × String))) : List (String × Entry) :=
  rows.foldl
    (fun gm row =>
      if row_key row ≠ "" then insertDict gm (row_key row) (entry_of_row row) else gm)
    []

/-- The scan of `rapidfuzz.process.extractOne`: keep the first choice whose
score is strictly greater than the current best. -/
def bestFold (score : String → String → Nat) (q : String)
    (best : String × Nat) (cs : List String) : String × Nat :=
  cs.foldl (fun b c => if b.2 < score q c then (c, score q c) else b) best

/-- Model of `rapidfuzz.process.extractOne(query, choices)` with the similarity scorer
abstracted as a function parameter: return the first best-scoring choice
together with its score (`none` only on an empty choice list, where the real
library raises). -/
def extractOne (score : String → String → Nat) (q : String) :
    List String → Option (String × Nat)
  | [] => none
  | c :: cs => some (bestFold score q (c, score q c) cs)

/-- The normalized index rebuilt inside `lookup_glossary`:
`{normalize_text(k): v for k, v in glossary.items()}`. -/
def norm_map_of (glossary : List (String × Entry)) : List (String × Entry) :=
  glossary.foldl (fun m p => insertDict m (normalize_text p.1) p.2) []

/-- Model of `lookup_glossary` of `src/app.py`: `None` on an empty glossary, else
normalized exact match against the normalized index, else the fuzzy
best-scoring key, accepted when its score reaches the threshold. -/
def lookup_glossary (score : String → String → Nat) (english_text : String)
    (glossary : List (String × Entry)) (threshold : Nat) : Option Entry :=
  if glossary = [] then none
  else
    match dictFind (norm_map_of glossary) (normalize_text english_text) with
    | some v => some v
    | none =>
      match extractOne score (normalize_text english_text)
          ((norm_map_of glossary).map Prod.fst) with
      | some (m, sc) =>
        if threshold ≤ sc then dictFind (norm_map_of glossary) m else none
      | none => none

/-- Model of `TARGET_CODE_MAP` of `src/app.py`. -/
def TARGET_CODE_MAP : List (String × String) :=
  [("ID", "id"), ("JA", "ja"), ("KO", "ko"), ("MS", "ms"),
   ("TH", "th"), ("VI", "vi"), ("ZH", "zh-CN")]

/-- Model of `TARGET_CODE_MAP[code]`: the mapped translator code, or the `KeyError`
(whose Python message is the repr of the key) that the `try` block catches. -/
def targetCodeOf (code : String) : Except String String :=
  match dictFind TARGET_CODE_MAP code with
  | some t => Except.ok t
  | none => Except.error ("'" ++ code ++ "'")

/-- The body of the `try` block of `translate_text_list`: map the display
code, then call the machine-translation collaborator `mt` (which receives
the mapped target code and the text, and may fail). -/
def tryTranslate (mt : String → String → Except String String)
    (code base : String) : Except String String :=
  match targetCodeOf code with
  | Except.ok tgt => mt tgt base
  | Except.error e => Except.error e

/-- Model of the `try`/`except` of `translate_text_list`: a failure populates the cell
with the visible `[Translation error: ...]` marker. -/
def tryMT (mt : String → String → Except String String) (code base : String) : String :=
  match tryTranslate mt code base with
  | Except.ok s => s
  | Except.error e => "[Translation error: " ++ e ++ "]"

/-- The value appended for one target `code` of one translatable string:
glossary override when the entry has a non-empty value for the code
(`if gmatch and gmatch.get(code, "")`), otherwise machine translation. -/
def itemValue (score : String → String → Nat) (glossary : List (String × Entry))
    (mt : String → String → Except String String) (t code : String) : String :=
  match lookup_glossary score t glossary 90 with
  | some gm => if dictGet gm code "" ≠ "" then dictGet gm code "" else tryMT mt code t
  | none => tryMT mt code t

/-- Model of `results[code].append(v)`: the per-code result columns as a function from
code to column. -/
def appendAt (res : String → List String) (code v : String) : String → List String :=
  fun c => if c = code then res c ++ [v] else res c

/-- The body of `for t in texts` in `translate_text_list`: noise strings are
passed through unchanged for every target code, otherwise each code receives
its glossary override or machine translation. -/
def stepItem (score : String → String → Nat) (glossary : List (String × Entry))
    (mt : String → String → Except String String) (targets : List String)
    (res : String → List String) (t : String) : String → List String :=
  if should_translate t = false then
    targets.foldl (fun r code => appendAt r code t) res
  else
    targets.foldl (fun r code => appendAt r code (itemValue score glossary mt t code)) res

/-- Model of `translate_text_list` of `src/app.py`, with the result dict
`{ code: [...] }` modelled as a function from target code to its column. -/
def translate_text_list (score : String → String → Nat)
    (glossary : List (String × Entry)) (mt : String → String → Except String String)
    (texts targets : List String) : String → List String :=
  texts.foldl (stepItem score glossary mt targets) (fun _ => [])

/-- The expected per-cell behaviour: pass noise through, otherwise glossary
override or machine translation. -/
def cellResult (score : String → String → Nat) (glossary : List (String × Entry))
    (mt : String → String → Except String String) (t code : String) : String :=
  if should_translate t = false then t else itemValue score glossary mt t code

/-- The cleanup loop of `ocr_extract_strings` (lines 177–185): strip, apply
corrections, drop empties, deduplicate by exact equality keeping the first
occurrence.  `seen` is the accumulated membership set. -/
def ocrCleanAux : List String → List String → List String
  | [], _ => []
  | t :: ts, seen =>
    let s := apply_corrections (pyStrip t)
    if s ≠ "" ∧ ¬ s ∈ seen then s :: ocrCleanAux ts (s :: seen)
    else ocrCleanAux ts seen

/-- Extraction-time cleanup of the raw OCR string list (the pure part of
`ocr_extract_strings`; the OCR reader itself is an external collaborator). -/
def ocr_extract_clean (texts : List String) : List String :=
  ocrCleanAux texts []

/-- Deduplication keeping the first occurrence, written directly from the
spec's words (§4.6): for comparison with the loop of the source. -/
def dedupFirst : List String → List String
  | [] => []
  | x :: xs => x :: (dedupFirst xs).filter (fun y => y ≠ x)

section NoiseFilter

theorem isAlpha_not_isDigit {c : Char} (h : c.isAlpha = true) : c.isDigit = false := by
  simp only [Char.isAlpha, Char.isUpper, Char.isLower, Char.isDigit,
    Bool.or_eq_true, Bool.and_eq_true, decide_eq_true_eq,
    UInt32.le_def, BitVec.le_def] at h ⊢
  simp only [Bool.and_eq_false_iff, decide_eq_false_iff_not, not_le]
  norm_num at h ⊢
  omega

theorem isAlpha_ne_underscore {c : Char} (h : c.isAlpha = true) : c ≠ '_' := by
  intro he
  subst he
  simp at h

/-- The character class `[0-9\W_]` of the noise regular expression holds
exactly when the character is not alphabetic. -/
theorem noiseClass_eq_not_isAlpha (c : Char) :
    (c.isDigit || !(isWordChar c) || c = '_') = !c.isAlpha := by
  unfold isWordChar
  by_cases ha : c.isAlpha = true
  · have hd := isAlpha_not_isDigit ha
    have hu : decide (c = '_') = false := by
      simp [isAlpha_ne_underscore ha]
    simp [ha, hd, hu]
  · have ha' : c.isAlpha = false := by
      cases h : c.isAlpha
      · rfl
      · exact absurd h ha
    cases hd : c.isDigit
    · cases hu : decide (c = '_')
      · simp [ha', hd, hu]
      · simp [ha', hd, hu]
    · simp [ha', hd]

theorem pyStrip_of_nil {s : String} (h : s.data = []) : (pyStrip s).length = 0 := by
  unfold pyStrip stripSpaces
  rw [h]
  rfl

/-- Characterization of `should_translate`: true exactly when the stripped
text is longer than one character and some character is alphabetic. -/
theorem should_translate_iff (s : String) :
    should_translate s = true ↔
      (1 < (pyStrip s).length ∧ ∃ c ∈ s.data, c.isAlpha = true) := by
  unfold should_translate
  by_cases h1 : (pyStrip s).length ≤ 1
  · rw [if_pos h1]
    constructor
    · intro h; cases h
    · rintro ⟨hlen, -⟩; omega
  · rw [if_neg h1]
    have hne : s.data ≠ [] := by
      intro hnil
      exact h1 (by rw [pyStrip_of_nil hnil]; omega)
    by_cases h2 : s.data ≠ [] ∧ ∀ c ∈ s.data, (c.isDigit || !(isWordChar c) || c = '_') = true
    · rw [if_pos h2]
      constructor
      · intro h; cases h
      · rintro ⟨-, c, hc, hal⟩
        have := h2.2 c hc
        rw [noiseClass_eq_not_isAlpha, hal] at this
        cases this
    · rw [if_neg h2]
      refine ⟨fun _ => ⟨by omega, ?_⟩, fun _ => rfl⟩
      rcases not_and_or.mp h2 with h3 | h3
      · exact absurd hne h3
      · push_neg at h3
        obtain ⟨c, hc, hcl⟩ := h3
        refine ⟨c, hc, ?_⟩
        rw [noiseClass_eq_not_isAlpha] at hcl
        cases hal : c.isAlpha
        · rw [hal] at hcl; simp at hcl
        · rfl

end NoiseFilter

section Corrections

theorem correctChar_idem (c : Char) : correctChar (correctChar c) = correctChar c := by
  by_cases h : c = 'l'
  · subst h; decide
  · simp [correctChar, CORRECTION_MAP, h]

theorem apply_corrections_data (s : String) :
    (apply_corrections s).data = s.data.map correctChar := rfl

end Corrections

/-- C4: the noise filter applies its rules in order — false when the
stripped string has length at most one, false when the string is entirely
digits, non-word symbols and underscores (equivalently: contains no
alphabetic character), true otherwise; in particular on "12", "!!", "A"
and "Apply" it returns false, false, false and true. -/
theorem claim_C4_noise_filter :
    (∀ s : String, should_translate s = true ↔
        (1 < (pyStrip s).length ∧ ∃ c ∈ s.data, c.isAlpha = true))
    ∧ should_translate "12" = false
    ∧ should_translate "!!" = false
    ∧ should_translate "A" = false
    ∧ should_translate "Apply" = true := by
  refine ⟨should_translate_iff, by decide, by decide, by decide, by decide⟩

/-- C10: `apply_corrections` is a position-wise character substitution — it
preserves length, the character at each position depends only on the input
character at that position (`correctChar`), and it is idempotent both per
character and on whole strings. -/
theorem claim_C10_apply_corrections :
    ∀ s : String,
      (apply_corrections s).length = s.length
      ∧ (∀ i : Nat, (apply_corrections s).data.get? i = (s.data.get? i).map correctChar)
      ∧ apply_corrections (apply_corrections s) = apply_corrections s
      ∧ (∀ c : Char, correctChar (correctChar c) = correctChar c) := by
  intro s
  refine ⟨?_, ?_, ?_, correctChar_idem⟩
  · show (s.data.map correctChar).length = s.data.length
    exact List.length_map s.data correctChar
  · intro i
    rw [apply_corrections_data, List.get?_map]
  · show (⟨(s.data.map correctChar).map correctChar⟩ : String) = ⟨s.data.map correctChar⟩
    rw [List.map_map]
    congr 1
    exact List.map_congr_left (fun c _ => correctChar_idem c)

/-- C8: looking anything up in an empty glossary returns `none`, and the
result does not depend on the fuzzy scorer (no scoring is performed). -/
theorem claim_C8_empty_glossary :
    ∀ (score score' : String → String → Nat) (q : String) (t : Nat),
      lookup_glossary score q [] t = none
      ∧ lookup_glossary score q [] t = lookup_glossary score' q [] t := by
  intro score score' q t
  exact ⟨rfl, rfl⟩

section Cleanup

theorem dedupFirst_nodup : ∀ l : List String, (dedupFirst l).Nodup := by
  intro l
  induction l with
  | nil => exact List.nodup_nil
  | cons x xs ih =>
    refine List.nodup_cons.mpr ⟨?_, ih.filter _⟩
    intro hx
    have := (List.mem_filter.mp hx).2
    simp at this

/-- The cleanup loop with accumulated `seen` set equals first-occurrence
deduplication of the cleaned nonempty strings, restricted to strings not
already seen. -/
theorem ocrCleanAux_eq : ∀ (ts seen : List String),
    ocrCleanAux ts seen =
      (dedupFirst ((ts.map (fun t => apply_corrections (pyStrip t))).filter
        (fun s => s ≠ ""))).filter (fun s => ¬ s ∈ seen) := by
  intro ts
  induction ts with
  | nil => intro seen; rfl
  | cons t ts ih =>
    intro seen
    by_cases hs : apply_corrections (pyStrip t) = ""
    · show (if apply_corrections (pyStrip t) ≠ "" ∧ ¬ apply_corrections (pyStrip t) ∈ seen then _ else _) = _
      rw [if_neg (by simp [hs])]
      simp only [List.map_cons, List.filter_cons]
      rw [show (decide (apply_corrections (pyStrip t) ≠ "")) = false by simp [hs]]
      exact ih seen
    · by_cases hseen : apply_corrections (pyStrip t) ∈ seen
      · show (if apply_corrections (pyStrip t) ≠ "" ∧ ¬ apply_corrections (pyStrip t) ∈ seen then _ else _) = _
        rw [if_neg (by simp [hseen])]
        simp only [List.map_cons, List.filter_cons]
        rw [show (decide (apply_corrections (pyStrip t) ≠ "")) = true by simp [hs]]
        show ocrCleanAux ts seen =
          ((dedupFirst (apply_corrections (pyStrip t) ::
            (ts.map (fun t => apply_corrections (pyStrip t))).filter (fun s => s ≠ ""))).filter
            (fun s => ¬ s ∈ seen))
        rw [show dedupFirst (apply_corrections (pyStrip t) ::
            (ts.map (fun t => apply_corrections (pyStrip t))).filter (fun s => s ≠ "")) =
          apply_corrections (pyStrip t) ::
            (dedupFirst ((ts.map (fun t => apply_corrections (pyStrip t))).filter
              (fun s => s ≠ ""))).filter (fun y => y ≠ apply_corrections (pyStrip t)) from rfl]
        rw [List.filter_cons]
        rw [show (decide (¬ apply_corrections (pyStrip t) ∈ seen)) = false by simp [hseen]]
        rw [List.filter_filter]
        rw [ih seen]
        apply List.filter_congr
        intro x _
        by_cases hx : x = apply_corrections (pyStrip t)
        · subst hx
          simp [hseen]
        · simp [hx]
      · show (if apply_corrections (pyStrip t) ≠ "" ∧ ¬ apply_corrections (pyStrip t) ∈ seen then _ else _) = _
        rw [if_pos ⟨hs, hseen⟩]
        simp only [List.map_cons, List.filter_cons]
        rw [show (decide (apply_corrections (pyStrip t) ≠ "")) = true by simp [hs]]
        show apply_corrections (pyStrip t) :: ocrCleanAux ts (apply_corrections (pyStrip t) :: seen) =
          ((dedupFirst (apply_corrections (pyStrip t) ::
            (ts.map (fun t => apply_corrections (pyStrip t))).filter (fun s => s ≠ ""))).filter
            (fun s => ¬ s ∈ seen))
        rw [show dedupFirst (apply_corrections (pyStrip t) ::
            (ts.map (fun t => apply_corrections (pyStrip t))).filter (fun s => s ≠ "")) =
          apply_corrections (pyStrip t) ::
            (dedupFirst ((ts.map (fun t => apply_corrections (pyStrip t))).filter
              (fun s => s ≠ ""))).filter (fun y => y ≠ apply_corrections (pyStrip t)) from rfl]
        rw [List.filter_cons]
        rw [show (decide (¬ apply_corrections (pyStrip t) ∈ seen)) = true by simp [hseen]]
        rw [if_pos rfl]
        rw [List.filter_filter]
        rw [ih (apply_corrections (pyStrip t) :: seen)]
        congr 1
        apply List.filter_congr
        intro x _
        by_cases hx : x = apply_corrections (pyStrip t)
        · subst hx
          simp
        · simp [hx, List.mem_cons]

end Cleanup

/-- C9: extraction-time cleanup applies the correction map to each stripped
string, discards empties, and deduplicates by exact equality preserving
first-seen order; in particular ["Book", "Pay", "Book"] cleans to
["Book", "Pay"], and the result never holds duplicates. -/
theorem claim_C9_cleanup :
    (∀ texts : List String,
      ocr_extract_clean texts =
        dedupFirst ((texts.map (fun t => apply_corrections (pyStrip t))).filter
          (fun s => s ≠ ""))
      ∧ (ocr_extract_clean texts).Nodup)
    ∧ ocr_extract_clean ["Book", "Pay", "Book"] = ["Book", "Pay"] := by
  constructor
  · intro texts
    have h := ocrCleanAux_eq texts []
    have h2 : (dedupFirst ((texts.map (fun t => apply_corrections (pyStrip t))).filter
        (fun s => s ≠ ""))).filter (fun s => ¬ s ∈ ([] : List String)) =
        dedupFirst ((texts.map (fun t => apply_corrections (pyStrip t))).filter
          (fun s => s ≠ "")) := by
      apply List.filter_eq_self.mpr
      intro a _
      simp
    constructor
    · exact h.trans h2
    · show (ocrCleanAux texts []).Nodup
      rw [h, h2]
      exact dedupFirst_nodup _
  · decide

/-- C5: the text normalizer is idempotent and case/punctuation/whitespace
insensitive — `normalize_text "Apply!" = normalize_text "  apply "` — and
its output is lowercase, contains only word characters and single spaces,
with no leading, trailing or doubled space. -/
theorem claim_C5_normalizer :
    ∀ s : String,
      normalize_text (normalize_text s) = normalize_text s
      ∧ normalize_text "Apply!" = normalize_text "  apply "
      ∧ (∀ c ∈ (normalize_text s).data,
          Char.toLower c = c ∧ (isWordChar c || c = ' ') = true)
      ∧ noDbl (normalize_text s).data = true
      ∧ (∀ d, (normalize_text s).data.head? = some d → d ≠ ' ')
      ∧ (∀ d, (normalize_text s).data.getLast? = some d → d ≠ ' ') := by
  intro s
  refine ⟨normalize_text_idem s, by decide, ?_, normalize_text_noDbl s, ?_, ?_⟩
  · intro c hc
    obtain ⟨hl, hk⟩ := normalize_text_chars s c hc
    refine ⟨hl, ?_⟩
    rcases Bool.or_eq_true_iff.mp hk with hw | hsp
    · simp [hw]
    · have := normalize_text_spaces s c hc hsp
      simp [this]
  · intro d hd he
    subst he
    have := normalize_text_head s ' ' hd
    simp [isSpaceChar] at this
  · intro d hd he
    subst he
    have := normalize_text_last s ' ' hd
    simp [isSpaceChar] at this

/-- Witness for C5 at a concrete input. -/
theorem claim_C5_witness :
    normalize_text (normalize_text "  Hello,   World!! ") = normalize_text "  Hello,   World!! "
    ∧ (Char.toLower 'h' = 'h' ∧ (isWordChar 'h' || 'h' = ' ') = true) := by
  have h := claim_C5_normalizer "  Hello,   World!! "
  exact ⟨h.1, h.2.2.1 'h' (by decide)⟩

section GlossaryBuild

theorem dictFind_insert_self {α : Type} : ∀ (d : List (String × α)) (k : String) (v : α),
    dictFind (insertDict d k v) k = some v := by
  intro d
  induction d with
  | nil => intro k v; simp [insertDict, dictFind]
  | cons p d ih =>
    intro k v
    by_cases h : p.1 = k
    · rw [insertDict, if_pos h]
      simp [dictFind]
    · rw [insertDict, if_neg h, dictFind, if_neg h]
      exact ih k v

theorem dictFind_insert_other {α : Type} : ∀ (d : List (String × α)) (k kq : String) (v : α),
    kq ≠ k → dictFind (insertDict d k v) kq = dictFind d kq := by
  intro d
  induction d with
  | nil =>
    intro k kq v h
    show (if k = kq then some v else dictFind [] kq) = dictFind [] kq
    rw [if_neg (fun hh => h hh.symm)]
  | cons p d ih =>
    intro k kq v h
    by_cases hp : p.1 = k
    · rw [insertDict, if_pos hp]
      show (if k = kq then some v else dictFind d kq)
        = if p.1 = kq then some p.2 else dictFind d kq
      rw [if_neg (fun hh => h hh.symm), if_neg (fun hh => h (hh.symm.trans hp))]
    · rw [insertDict, if_neg hp]
      show (if p.1 = kq then some p.2 else dictFind (insertDict d k v) kq)
        = if p.1 = kq then some p.2 else dictFind d kq
      by_cases hq : p.1 = kq
      · rw [if_pos hq, if_pos hq]
      · rw [if_neg hq, if_neg hq]
        exact ih k kq v h

theorem getLast?_cons_or {α : Type} (a : α) (l : List α) :
    (a :: l).getLast? = Option.or l.getLast? (some a) := by
  cases l with
  | nil => rfl
  | cons b l' =>
    rw [List.getLast?_cons_cons]
    cases hl : (b :: l').getLast? with
    | none => simp at hl
    | some x => rfl

end GlossaryBuild

section GlossaryBuildFold

theorem build_fold (k : String) (hk : k ≠ "") :
    ∀ (rows : List (List (String × String))) (gm : List (String × Entry)),
      dictFind
        (rows.foldl
          (fun gm row =>
            if row_key row ≠ "" then insertDict gm (row_key row) (entry_of_row row) else gm)
          gm) k
      = Option.or (((rows.filter (fun r => row_key r = k)).map entry_of_row).getLast?)
          (dictFind gm k) := by
  intro rows
  induction rows with
  | nil => intro gm; simp
  | cons r rows ih =>
    intro gm
    rw [List.foldl_cons]
    by_cases hr : row_key r = ""
    · rw [if_neg (fun hh => hh hr)]
      rw [List.filter_cons,
        show (decide (row_key r = k)) = false by
          simp only [decide_eq_false_iff_not]
          exact fun hh => hk (hh ▸ hr)]
      rw [if_neg (by simp)]
      exact ih gm
    · rw [if_pos hr]
      by_cases hrk : row_key r = k
      · rw [hrk]
        rw [ih (insertDict gm k (entry_of_row r))]
        rw [dictFind_insert_self]
        rw [List.filter_cons,
          show (decide (row_key r = k)) = true by simp [hrk]]
        rw [if_pos rfl]
        rw [List.map_cons, getLast?_cons_or]
        cases hmaps : ((rows.filter (fun r => row_key r = k)).map entry_of_row).getLast? with
        | none => rfl
        | some x => rfl
      · rw [ih (insertDict gm (row_key r) (entry_of_row r))]
        rw [dictFind_insert_other gm (row_key r) k (entry_of_row r)
          (fun hh => hrk hh.symm)]
        rw [List.filter_cons,
          show (decide (row_key r = k)) = false by simp [hrk]]
        rw [if_neg (by simp)]

theorem build_fold_empty :
    ∀ (rows : List (List (String × String))) (gm : List (String × Entry)),
      dictFind gm "" = none →
      dictFind
        (rows.foldl
          (fun gm row =>
            if row_key row ≠ "" then insertDict gm (row_key row) (entry_of_row row) else gm)
          gm) "" = none := by
  intro rows
  induction rows with
  | nil => intro gm h; exact h
  | cons r rows ih =>
    intro gm h
    rw [List.foldl_cons]
    by_cases hr : row_key r = ""
    · rw [if_neg (fun hh => hh hr)]
      exact ih gm h
    · rw [if_pos hr]
      apply ih
      rw [dictFind_insert_other gm (row_key r) "" (entry_of_row r) (fun hh => hr hh.symm)]
      exact h

end GlossaryBuildFold

/-- A glossary row whose English column is pure punctuation: its §4.1
normalization is empty, but its strip-and-lowercase key is not. -/
def rowBang : List (String × String) :=
  [("EN", "!!"), ("ID", "x"), ("JA", ""), ("KO", ""),
   ("MS", ""), ("TH", ""), ("VI", ""), ("ZH", "")]

/-- C1 is false as stated: the build loop keys the index by
`str(row["EN"]).strip().lower()`, not by the §4.1 normalization.  For the
row with English column "!!" the §4.1-normalized key is empty, so the claim
says no entry is inserted; the code inserts one under the key "!!". -/
theorem claim_C1_counterexample :
    normalize_text (dictGet rowBang "EN" "") = ""
    ∧ build_glossary_map [rowBang] ≠ []
    ∧ dictFind (build_glossary_map [rowBang]) "!!" = some (entry_of_row rowBang) := by
  refine ⟨by decide, by decide, by decide⟩

/-- C1 amended: an entry is inserted only when the key obtained by stripping
and lowercasing the row's English column is non-empty (punctuation is kept
and internal whitespace is not collapsed), and among rows sharing that key
the last row's entry is the one present: the built index maps each non-empty
key `k` to the entry of the last row whose stripped-lowercased English column
equals `k`, and holds nothing under the empty key. -/
theorem claim_C1_amended :
    ∀ (rows : List (List (String × String))) (k : String),
      dictFind (build_glossary_map rows) k =
        if k = "" then none
        else ((rows.filter (fun r => row_key r = k)).map entry_of_row).getLast? := by
  intro rows k
  by_cases hk : k = ""
  · rw [if_pos hk, hk]
    exact build_fold_empty rows [] rfl
  · rw [if_neg hk]
    show dictFind (rows.foldl _ []) k = _
    rw [build_fold k hk rows []]
    show Option.or _ none = _
    cases ((rows.filter (fun r => row_key r = k)).map entry_of_row).getLast? with
    | none => rfl
    | some x => rfl

section LookupFuzzy

theorem insertDict_ne_nil {α : Type} (d : List (String × α)) (k : String) (v : α) :
    insertDict d k v ≠ [] := by
  cases d with
  | nil => simp [insertDict]
  | cons p d =>
    rw [insertDict]
    split <;> simp

theorem foldl_insert_ne_nil :
    ∀ (g : List (String × Entry)) (m : List (String × Entry)), m ≠ [] →
      g.foldl (fun m p => insertDict m (normalize_text p.1) p.2) m ≠ [] := by
  intro g
  induction g with
  | nil => intro m h; exact h
  | cons p g ih =>
    intro m _
    rw [List.foldl_cons]
    exact ih _ (insertDict_ne_nil m (normalize_text p.1) p.2)

theorem norm_map_ne_nil {glossary : List (String × Entry)} (h : glossary ≠ []) :
    norm_map_of glossary ≠ [] := by
  unfold norm_map_of
  cases glossary with
  | nil => exact absurd rfl h
  | cons p g =>
    rw [List.foldl_cons]
    exact foldl_insert_ne_nil g _ (insertDict_ne_nil [] (normalize_text p.1) p.2)

theorem dictFind_of_mem_keys {α : Type} :
    ∀ {d : List (String × α)} {k : String}, k ∈ d.map Prod.fst →
      ∃ v, dictFind d k = some v := by
  intro d
  induction d with
  | nil => intro k h; simp at h
  | cons p d ih =>
    intro k h
    by_cases hp : p.1 = k
    · exact ⟨p.2, by rw [dictFind, if_pos hp]⟩
    · rw [List.map_cons] at h
      rcases List.mem_cons.mp h with h1 | h1
      · exact absurd h1.symm hp
      · obtain ⟨v, hv⟩ := ih h1
        exact ⟨v, by rw [dictFind, if_neg hp]; exact hv⟩

theorem bestFold_spec (score : String → String → Nat) (q : String) :
    ∀ (cs : List String) (best : String × Nat), best.2 = score q best.1 →
      (bestFold score q best cs).2 = score q (bestFold score q best cs).1
      ∧ ((bestFold score q best cs) = best ∨ (bestFold score q best cs).1 ∈ cs)
      ∧ best.2 ≤ (bestFold score q best cs).2
      ∧ ∀ k ∈ cs, score q k ≤ (bestFold score q best cs).2 := by
  intro cs
  induction cs with
  | nil =>
    intro best h
    refine ⟨h, Or.inl rfl, Nat.le_refl _, ?_⟩
    intro k hk
    simp at hk
  | cons c cs ih =>
    intro best h
    have hstep : bestFold score q best (c :: cs)
        = bestFold score q (if best.2 < score q c then (c, score q c) else best) cs := rfl
    set best' := if best.2 < score q c then (c, score q c) else best with hbest'
    have hb' : best'.2 = score q best'.1 := by
      rw [hbest']
      split
      · rfl
      · exact h
    have hle : best.2 ≤ best'.2 := by
      rw [hbest']
      split
      · next hlt => exact Nat.le_of_lt hlt
      · exact Nat.le_refl _
    have hc : score q c ≤ best'.2 := by
      rw [hbest']
      split
      · rfl
      · next hlt => exact Nat.le_trans (Nat.le_of_not_lt hlt) (Nat.le_refl _)
    obtain ⟨ih1, ih2, ih3, ih4⟩ := ih best' hb'
    rw [hstep]
    refine ⟨ih1, ?_, Nat.le_trans hle ih3, ?_⟩
    · rcases ih2 with h2 | h2
      · rw [h2, hbest']
        split
        · next => exact Or.inr (List.mem_cons_self _ _)
        · exact Or.inl rfl
      · exact Or.inr (List.mem_cons_of_mem _ h2)
    · intro k hk
      rcases List.mem_cons.mp hk with h1 | h1
      · subst h1
        exact Nat.le_trans hc ih3
      · exact ih4 k h1

theorem extractOne_spec (score : String → String → Nat) (q : String)
    (choices : List String) (hne : choices ≠ []) :
    ∃ b sc, extractOne score q choices = some (b, sc)
      ∧ sc = score q b
      ∧ b ∈ choices
      ∧ ∀ k ∈ choices, score q k ≤ sc := by
  cases choices with
  | nil => exact absurd rfl hne
  | cons c cs =>
    obtain ⟨h1, h2, h3, h4⟩ := bestFold_spec score q cs (c, score q c) rfl
    refine ⟨(bestFold score q (c, score q c) cs).1,
      (bestFold score q (c, score q c) cs).2, rfl, h1, ?_, ?_⟩
    · rcases h2 with h | h
      · rw [h]; exact List.mem_cons_self _ _
      · exact List.mem_cons_of_mem _ h
    · intro k hk
      rcases List.mem_cons.mp hk with h | h
      · subst h; exact h3
      · exact h4 k h

end LookupFuzzy

/-- C3: glossary lookup normalizes the query; on a normalized exact hit it
returns that entry; otherwise (on a non-empty glossary) it scores the
normalized query against every key of the normalized index, selects the
best-scoring key, and returns its entry exactly when the best score reaches
the threshold. -/
theorem claim_C3_lookup (score : String → String → Nat) (q : String)
    (glossary : List (String × Entry)) (threshold : Nat) (hg : glossary ≠ []) :
    (∀ e, dictFind (norm_map_of glossary) (normalize_text q) = some e →
        lookup_glossary score q glossary threshold = some e)
    ∧ (dictFind (norm_map_of glossary) (normalize_text q) = none →
        ∃ b sc e,
          extractOne score (normalize_text q) ((norm_map_of glossary).map Prod.fst)
            = some (b, sc)
          ∧ sc = score (normalize_text q) b
          ∧ b ∈ (norm_map_of glossary).map Prod.fst
          ∧ (∀ k ∈ (norm_map_of glossary).map Prod.fst,
              score (normalize_text q) k ≤ sc)
          ∧ dictFind (norm_map_of glossary) b = some e
          ∧ lookup_glossary score q glossary threshold
              = (if threshold ≤ sc then some e else none)) := by
  constructor
  · intro e he
    unfold lookup_glossary
    rw [if_neg hg, he]
  · intro hn
    have hkeys : (norm_map_of glossary).map Prod.fst ≠ [] := by
      intro h
      exact norm_map_ne_nil hg (List.map_eq_nil_iff.mp h)
    obtain ⟨b, sc, hext, hsc, hmem, hmax⟩ :=
      extractOne_spec score (normalize_text q) ((norm_map_of glossary).map Prod.fst) hkeys
    obtain ⟨e, he⟩ := dictFind_of_mem_keys hmem
    refine ⟨b, sc, e, hext, hsc, hmem, hmax, he, ?_⟩
    unfold lookup_glossary
    rw [if_neg hg, hn, hext]
    show (if threshold ≤ sc then dictFind (norm_map_of glossary) b else none)
      = if threshold ≤ sc then some e else none
    rw [he]

/-- A concrete fuzzy scorer for witnesses: 100 on equal strings, 92 for the
typo pair of the specification's example, small otherwise. -/
def score0 (a b : String) : Nat :=
  if a = b then 100 else if a = "aply" ∧ b = "apply" then 92 else 10

/-- A concrete glossary entry for witnesses. -/
def entryApply : Entry :=
  [("EN", "Apply"), ("ID", "Terapkan"), ("JA", ""), ("KO", ""),
   ("MS", ""), ("TH", ""), ("VI", ""), ("ZH", "")]

/-- A concrete one-entry glossary for witnesses. -/
def gloss0 : List (String × Entry) := [("Apply", entryApply)]

/-- Witness for C3: the typo query "Aply" against the glossary key "Apply"
under a scorer giving 92 ≥ 90. -/
theorem claim_C3_witness :
    gloss0 ≠ ([] : List (String × Entry))
    ∧ ((∀ e, dictFind (norm_map_of gloss0) (normalize_text "Aply") = some e →
          lookup_glossary score0 "Aply" gloss0 90 = some e)
      ∧ (dictFind (norm_map_of gloss0) (normalize_text "Aply") = none →
          ∃ b sc e,
            extractOne score0 (normalize_text "Aply") ((norm_map_of gloss0).map Prod.fst)
              = some (b, sc)
            ∧ sc = score0 (normalize_text "Aply") b
            ∧ b ∈ (norm_map_of gloss0).map Prod.fst
            ∧ (∀ k ∈ (norm_map_of gloss0).map Prod.fst,
                score0 (normalize_text "Aply") k ≤ sc)
            ∧ dictFind (norm_map_of gloss0) b = some e
            ∧ lookup_glossary score0 "Aply" gloss0 90
                = (if 90 ≤ sc then some e else none))) :=
  ⟨by decide, claim_C3_lookup score0 "Aply" gloss0 90 (by decide)⟩

section TranslateResolver

theorem appendAt_foldl (f : String → String) :
    ∀ (codes : List String) (res : String → List String) (c : String),
      (codes.foldl (fun r code => appendAt r code (f code)) res) c
        = res c ++ (codes.filter (fun k => k = c)).map f := by
  intro codes
  induction codes with
  | nil =>
    intro res c
    exact (List.append_nil _).symm
  | cons k codes ih =>
    intro res c
    rw [List.foldl_cons]
    rw [ih (appendAt res k (f k)) c]
    rw [List.filter_cons]
    by_cases hck : c = k
    · subst hck
      rw [show (decide (c = c)) = true by simp]
      rw [if_pos rfl]
      rw [List.map_cons]
      show (if c = c then res c ++ [f c] else res c) ++ _ = _
      rw [if_pos rfl]
      rw [List.append_assoc]
      rfl
    · rw [show (decide (k = c)) = false by simp; exact fun hh => hck hh.symm]
      rw [if_neg (by simp)]
      show (if c = k then res c ++ [f k] else res c) ++ _ = _
      rw [if_neg hck]

theorem filter_self_singleton :
    ∀ (l : List String), l.Nodup → ∀ c ∈ l, l.filter (fun k => k = c) = [c] := by
  intro l
  induction l with
  | nil => intro _ c hc; simp at hc
  | cons x xs ih =>
    intro hnd c hc
    obtain ⟨hx, hxs⟩ := List.nodup_cons.mp hnd
    rcases List.mem_cons.mp hc with h1 | h1
    · have hfil : xs.filter (fun k => k = c) = [] := by
        apply List.filter_eq_nil_iff.mpr
        intro a ha
        simp only [decide_eq_true_eq]
        intro he
        rw [he, h1] at ha
        exact hx ha
      rw [List.filter_cons, show (decide (x = c)) = true by simp [h1], if_pos rfl, hfil,
        h1]
    · have hxc : x ≠ c := fun he => hx (he ▸ h1)
      rw [List.filter_cons, show (decide (x = c)) = false by simp [hxc], if_neg (by simp)]
      exact ih hxs c h1

theorem stepItem_apply (score : String → String → Nat) (glossary : List (String × Entry))
    (mt : String → String → Except String String) (targets : List String)
    (hnd : targets.Nodup) {c : String} (hc : c ∈ targets)
    (res : String → List String) (t : String) :
    stepItem score glossary mt targets res t c
      = res c ++ [cellResult score glossary mt t c] := by
  unfold stepItem cellResult
  by_cases hst : should_translate t = false
  · rw [if_pos hst, if_pos hst]
    refine (appendAt_foldl (fun _ => t) targets res c).trans ?_
    rw [filter_self_singleton targets hnd c hc]
    rfl
  · rw [if_neg hst, if_neg hst]
    refine (appendAt_foldl (fun code => itemValue score glossary mt t code) targets res c).trans ?_
    rw [filter_self_singleton targets hnd c hc]
    rfl

theorem translate_fold (score : String → String → Nat) (glossary : List (String × Entry))
    (mt : String → String → Except String String) (targets : List String)
    (hnd : targets.Nodup) {c : String} (hc : c ∈ targets) :
    ∀ (texts : List String) (res : String → List String),
      (texts.foldl (stepItem score glossary mt targets) res) c
        = res c ++ texts.map (fun t => cellResult score glossary mt t c) := by
  intro texts
  induction texts with
  | nil =>
    intro res
    exact (List.append_nil _).symm
  | cons t ts ih =>
    intro res
    rw [List.foldl_cons]
    rw [ih (stepItem score glossary mt targets res t)]
    rw [stepItem_apply score glossary mt targets hnd hc res t]
    rw [List.map_cons, List.append_assoc]
    rfl

/-- Each requested code's column is the input list mapped through the
per-cell resolution. -/
theorem translate_text_list_eq_map (score : String → String → Nat)
    (glossary : List (String × Entry)) (mt : String → String → Except String String)
    (texts targets : List String) (hnd : targets.Nodup) {code : String}
    (hcode : code ∈ targets) :
    translate_text_list score glossary mt texts targets code
      = texts.map (fun t => cellResult score glossary mt t code) := by
  unfold translate_text_list
  rw [translate_fold score glossary mt targets hnd hcode texts (fun _ => [])]
  rfl

end TranslateResolver

/-- C2: alignment invariant — for every input list and duplicate-free
non-empty selection of target codes, each requested code's column is exactly
the input list mapped through the per-cell resolution, hence has the same
length, with entry `i` produced from input `i` (the targets come from a
multiselect over distinct options, so a request never repeats a code). -/
theorem claim_C2_alignment (score : String → String → Nat)
    (glossary : List (String × Entry)) (mt : String → String → Except String String)
    (texts targets : List String) (hne : targets ≠ []) (hnd : targets.Nodup) :
    ∀ code ∈ targets,
      translate_text_list score glossary mt texts targets code
        = texts.map (fun t => cellResult score glossary mt t code)
      ∧ (translate_text_list score glossary mt texts targets code).length
          = texts.length := by
  intro code hcode
  have h := translate_text_list_eq_map score glossary mt texts targets hnd hcode
  exact ⟨h, by rw [h, List.length_map]⟩

/-- A machine-translation stub for witnesses: echoes the text. -/
def mtId : String → String → Except String String := fun _ t => Except.ok t

/-- A machine-translation stub for witnesses: always fails. -/
def mtErr : String → String → Except String String := fun _ _ => Except.error "boom"

/-- Witness for C2 at a concrete input. -/
theorem claim_C2_witness :
    (["ID"] : List String) ≠ []
    ∧ (["ID"] : List String).Nodup
    ∧ "ID" ∈ (["ID"] : List String)
    ∧ translate_text_list score0 gloss0 mtId ["42", "Apply"] ["ID"] "ID"
        = (["42", "Apply"] : List String).map (fun t => cellResult score0 gloss0 mtId t "ID")
    ∧ (translate_text_list score0 gloss0 mtId ["42", "Apply"] ["ID"] "ID").length
        = (["42", "Apply"] : List String).length := by
  have h := claim_C2_alignment score0 gloss0 mtId ["42", "Apply"] ["ID"]
    (by decide) (by decide) "ID" (by decide)
  exact ⟨by decide, by decide, by decide, h.1, h.2⟩

/-- C6: a machine-translation failure on one cell populates that cell with
the visible "[Translation error: ...]" marker carrying the failure
description; the resolver is a total function (no exception escapes) and
every requested code's column still covers the whole batch. -/
theorem claim_C6_translation_error (score : String → String → Nat)
    (glossary : List (String × Entry)) (mt : String → String → Except String String)
    (texts targets : List String) (code : String) (i : Nat)
    (hnd : targets.Nodup) (hcode : code ∈ targets) (hi : i < texts.length)
    (hst : should_translate (texts.get ⟨i, hi⟩) = true) (e : String)
    (hgl : ∀ gm, lookup_glossary score (texts.get ⟨i, hi⟩) glossary 90 = some gm →
        dictGet gm code "" = "")
    (hmt : tryTranslate mt code (texts.get ⟨i, hi⟩) = Except.error e) :
    (translate_text_list score glossary mt texts targets code).get? i
      = some ("[Translation error: " ++ e ++ "]")
    ∧ ∀ c ∈ targets,
        (translate_text_list score glossary mt texts targets c).length
          = texts.length := by
  constructor
  · rw [translate_text_list_eq_map score glossary mt texts targets hnd hcode]
    rw [List.get?_map, List.get?_eq_get hi]
    have hcell : cellResult score glossary mt (texts.get ⟨i, hi⟩) code
        = "[Translation error: " ++ e ++ "]" := by
      unfold cellResult
      rw [if_neg (by rw [hst]; simp)]
      unfold itemValue
      cases hl : lookup_glossary score (texts.get ⟨i, hi⟩) glossary 90 with
      | none =>
        show tryMT mt code (texts.get ⟨i, hi⟩) = _
        unfold tryMT
        rw [hmt]
      | some gm =>
        have hz := hgl gm hl
        show (if dictGet gm code "" ≠ "" then dictGet gm code ""
          else tryMT mt code (texts.get ⟨i, hi⟩)) = _
        rw [if_neg (fun hh => hh hz)]
        unfold tryMT
        rw [hmt]
    rw [Option.map_some', hcell]
  · intro c hcm
    rw [translate_text_list_eq_map score glossary mt texts targets hnd hcm,
      List.length_map]

/-- C7: when the noise filter rejects a string, every requested code's
column holds the original string unchanged at that position. -/
theorem claim_C7_passthrough (score : String → String → Nat)
    (glossary : List (String × Entry)) (mt : String → String → Except String String)
    (texts targets : List String) (code : String) (i : Nat)
    (hnd : targets.Nodup) (hcode : code ∈ targets) (hi : i < texts.length)
    (hst : should_translate (texts.get ⟨i, hi⟩) = false) :
    (translate_text_list score glossary mt texts targets code).get? i
      = some (texts.get ⟨i, hi⟩) := by
  rw [translate_text_list_eq_map score glossary mt texts targets hnd hcode]
  rw [List.get?_map, List.get?_eq_get hi]
  rw [Option.map_some']
  have hcell : cellResult score glossary mt (texts.get ⟨i, hi⟩) code
      = texts.get ⟨i, hi⟩ := by
    unfold cellResult
    rw [if_pos hst]
  rw [hcell]

/-- Witness for C6: a failing translator marks the cell and the batch
completes. -/
theorem claim_C6_witness :
    (translate_text_list score0 gloss0 mtErr ["Pay", "42"] ["ID"] "ID").get? 0
      = some ("[Translation error: " ++ "boom" ++ "]")
    ∧ ∀ c ∈ (["ID"] : List String),
        (translate_text_list score0 gloss0 mtErr ["Pay", "42"] ["ID"] c).length
          = (["Pay", "42"] : List String).length := by
  refine claim_C6_translation_error score0 gloss0 mtErr ["Pay", "42"] ["ID"] "ID" 0
    (by decide) (by decide) (by decide) (by decide) "boom" ?_ rfl
  intro gm h
  rw [show lookup_glossary score0 ((["Pay", "42"] : List String).get ⟨0, by decide⟩)
      gloss0 90 = none by decide] at h
  cases h

/-- Witness for C7: "42" passes through unchanged for target ID. -/
theorem claim_C7_witness :
    (translate_text_list score0 gloss0 mtId ["42", "Apply"] ["ID"] "ID").get? 0
      = some "42" :=
  claim_C7_passthrough score0 gloss0 mtId ["42", "Apply"] ["ID"] "ID" 0
    (by decide) (by decide) (by decide) (by decide)
